import Mathlib

/-!
# Verification of the "Better Parenting" Blender addon

Shallow embedding of `src/__init__.py` (operators `DeleteRecursive`,
`ParentToEmpty`, `SelectDescendants` and the helpers `get_bounding_box`,
`apply_location_to_matrix`), together with proofs of the specification
claims about them.

Scalars are modelled as extended rationals (`XQ`): the Python code
computes with IEEE-754 doubles and `get_bounding_box` starts its fold
from `float("inf")` / `float("-inf")`, so the embedding carries explicit
`pinf`, `ninf` and `nan` values with the IEEE propagation rules for the
operations the addon actually performs.  On finite inputs every
operation used here is exact in ℚ.

The host scene graph (Blender) owns all mutable state.  Objects are
embedded as records carrying the fields the addon reads and writes
(`parent`, `matrix_world`, `type`, vertex data, display flags); the
effect of a bare `obj.parent = ...` assignment on the object's world
matrix is host-defined, so it is passed in as an oracle parameter and
the theorems hold for every oracle.
-/

namespace BetterParenting

/-- Extended rational scalar: a Python float that is finite (exact value
tracked in ℚ), `+inf`, `-inf`, or `nan`. -/
inductive XQ where
  | fin (q : ℚ)
  | pinf
  | ninf
  | nan
deriving DecidableEq, Repr

/-- Is the scalar a finite value? -/
def XQ.isFin : XQ → Bool
  | .fin _ => true
  | _ => false

/-- The rational value of a finite scalar (junk `0` otherwise). -/
def XQ.toQ : XQ → ℚ
  | .fin q => q
  | _ => 0

/-- IEEE-754 `<` on extended rationals: any comparison with `nan` is
false. -/
def XQ.lt : XQ → XQ → Bool
  | .nan, _ => false
  | _, .nan => false
  | .fin a, .fin b => a < b
  | .fin _, .pinf => true
  | .fin _, .ninf => false
  | .pinf, _ => false
  | .ninf, .ninf => false
  | .ninf, _ => true

/-- Python `min(a, b)`: keeps `a` unless `b` compares strictly smaller. -/
def XQ.pymin (a b : XQ) : XQ := if XQ.lt b a then b else a

/-- Python `max(a, b)`: keeps `a` unless `b` compares strictly greater. -/
def XQ.pymax (a b : XQ) : XQ := if XQ.lt a b then b else a

/-- IEEE-754 addition on extended rationals: `nan` propagates and
`(+inf) + (-inf) = nan`. -/
def XQ.add : XQ → XQ → XQ
  | .nan, _ => .nan
  | _, .nan => .nan
  | .pinf, .ninf => .nan
  | .ninf, .pinf => .nan
  | .pinf, _ => .pinf
  | _, .pinf => .pinf
  | .ninf, _ => .ninf
  | _, .ninf => .ninf
  | .fin a, .fin b => .fin (a + b)

/-- IEEE-754 negation. -/
def XQ.neg : XQ → XQ
  | .fin a => .fin (-a)
  | .pinf => .ninf
  | .ninf => .pinf
  | .nan => .nan

/-- IEEE-754 subtraction, `a - b = a + (-b)`. -/
def XQ.sub (a b : XQ) : XQ := XQ.add a (XQ.neg b)

/-- IEEE-754 multiplication: `nan` propagates and `0 * (±inf) = nan`. -/
def XQ.mul : XQ → XQ → XQ
  | .nan, _ => .nan
  | _, .nan => .nan
  | .fin a, .fin b => .fin (a * b)
  | .fin a, .pinf => if 0 < a then .pinf else if a < 0 then .ninf else .nan
  | .fin a, .ninf => if 0 < a then .ninf else if a < 0 then .pinf else .nan
  | .pinf, .fin b => if 0 < b then .pinf else if b < 0 then .ninf else .nan
  | .ninf, .fin b => if 0 < b then .ninf else if b < 0 then .pinf else .nan
  | .pinf, .pinf => .pinf
  | .pinf, .ninf => .ninf
  | .ninf, .pinf => .ninf
  | .ninf, .ninf => .pinf

/-- Division of a scalar by a Python `int` denominator.  Division by
zero raises `ZeroDivisionError` in Python; it is modelled as `nan` and
is unreachable under the callers' non-empty-selection guards. -/
def XQ.divN : XQ → Nat → XQ
  | _, 0 => .nan
  | .fin q, n => .fin (q / (n : ℚ))
  | .pinf, _ => .pinf
  | .ninf, _ => .ninf
  | .nan, _ => .nan

/-- A `mathutils.Vector` of length 3. -/
structure Vec3 where
  x : XQ
  y : XQ
  z : XQ
deriving DecidableEq, Repr

/-- All three components are finite. -/
def Vec3.finB (v : Vec3) : Bool := v.x.isFin && v.y.isFin && v.z.isFin

/-- `Vector()` — the zero vector, the start value of Python `sum`. -/
def Vec3.vzero : Vec3 := ⟨.fin 0, .fin 0, .fin 0⟩

/-- Componentwise vector addition. -/
def vadd (a b : Vec3) : Vec3 := ⟨XQ.add a.x b.x, XQ.add a.y b.y, XQ.add a.z b.z⟩

/-- Componentwise vector subtraction. -/
def vsub (a b : Vec3) : Vec3 := ⟨XQ.sub a.x b.x, XQ.sub a.y b.y, XQ.sub a.z b.z⟩

/-- Vector divided by a Python `int`. -/
def vdivN (v : Vec3) (n : Nat) : Vec3 := ⟨XQ.divN v.x n, XQ.divN v.y n, XQ.divN v.z n⟩

/-- A 4×4 `mathutils.Matrix` restricted to the affine rows the addon
touches (the bottom row is the constant `[0,0,0,1]`). -/
structure Mat4 where
  m00 : XQ
  m01 : XQ
  m02 : XQ
  m03 : XQ
  m10 : XQ
  m11 : XQ
  m12 : XQ
  m13 : XQ
  m20 : XQ
  m21 : XQ
  m22 : XQ
  m23 : XQ
deriving DecidableEq, Repr

/-- The identity matrix: `matrix_world` of a freshly created object. -/
def Mat4.idM : Mat4 :=
  { m00 := .fin 1, m01 := .fin 0, m02 := .fin 0, m03 := .fin 0,
    m10 := .fin 0, m11 := .fin 1, m12 := .fin 0, m13 := .fin 0,
    m20 := .fin 0, m21 := .fin 0, m22 := .fin 1, m23 := .fin 0 }

/-- `matrix.translation` — the last column of the affine rows. -/
def Mat4.translation (m : Mat4) : Vec3 := ⟨m.m03, m.m13, m.m23⟩

/-- `matrix @ co` — apply the affine matrix to a point. -/
def Mat4.mulPoint (m : Mat4) (v : Vec3) : Vec3 :=
  ⟨XQ.add (XQ.add (XQ.add (XQ.mul m.m00 v.x) (XQ.mul m.m01 v.y)) (XQ.mul m.m02 v.z)) m.m03,
   XQ.add (XQ.add (XQ.add (XQ.mul m.m10 v.x) (XQ.mul m.m11 v.y)) (XQ.mul m.m12 v.z)) m.m13,
   XQ.add (XQ.add (XQ.add (XQ.mul m.m20 v.x) (XQ.mul m.m21 v.y)) (XQ.mul m.m22 v.z)) m.m23⟩

/-- `apply_location_to_matrix(location, matrix)`: write `location` into
the matrix entries `[0][3]`, `[1][3]`, `[2][3]`. -/
def apply_location_to_matrix (location : Vec3) (m : Mat4) : Mat4 :=
  { m with m03 := location.x, m13 := location.y, m23 := location.z }

/-- A host scene object, restricted to the fields the addon reads or
writes.  `parent` holds the id of the parent object (`none` = Python
`None`); `vertices` is `obj.data.vertices[...].co` for mesh objects and
empty otherwise. -/
structure Obj where
  id : Nat
  type : String
  parent : Option Nat
  matrix_world : Mat4
  vertices : List Vec3
  show_name : Bool := false
  show_axis : Bool := false
  show_in_front : Bool := false
  empty_display_type : String := ""
deriving DecidableEq, Repr

/-- `obj.location`, read by the addon only while the object has no
parent, where it coincides with the world translation. -/
def Obj.location (o : Obj) : Vec3 := o.matrix_world.translation

/-- All vertex positions of the given objects mapped to world space by
each object's own `matrix_world` (the stream `get_bounding_box` folds
over). -/
def worldVerts (objs : List Obj) : List Vec3 :=
  objs.flatMap (fun o => o.vertices.map o.matrix_world.mulPoint)

/-- One `min_point`/`max_point` update of `get_bounding_box` for one
world-space vertex position. -/
def bboxStep (st : Vec3 × Vec3) (w : Vec3) : Vec3 × Vec3 :=
  (⟨XQ.pymin st.1.x w.x, XQ.pymin st.1.y w.y, XQ.pymin st.1.z w.z⟩,
   ⟨XQ.pymax st.2.x w.x, XQ.pymax st.2.y w.y, XQ.pymax st.2.z w.z⟩)

/-- The (`min_point`, `max_point`) pair accumulated by the nested loops
of `get_bounding_box`, starting from `(+inf, +inf, +inf)` and
`(-inf, -inf, -inf)`. -/
def bboxMinMax (objs : List Obj) : Vec3 × Vec3 :=
  objs.foldl
    (fun st o => o.vertices.foldl (fun st v => bboxStep st (o.matrix_world.mulPoint v)) st)
    (⟨.pinf, .pinf, .pinf⟩, ⟨.ninf, .ninf, .ninf⟩)

/-- `get_bounding_box(objs)`: returns
`((min_point + max_point) / 2, max_point - min_point)`. -/
def get_bounding_box (objs : List Obj) : Vec3 × Vec3 :=
  (vdivN (vadd (bboxMinMax objs).1 (bboxMinMax objs).2) 2,
   vsub (bboxMinMax objs).2 (bboxMinMax objs).1)

/-- The operator properties of `ParentToEmpty` (`location` enum and the
three display-flag toggles, with their declared defaults). -/
structure PTEProps where
  location : String := "CENTER"
  show_name : Bool := true
  show_axis : Bool := false
  show_in_front : Bool := true

/-- `ParentToEmpty.poll`: `len(context.selected_objects) != 0`. -/
def ParentToEmpty_poll (selected_objects : List Obj) : Bool :=
  selected_objects.length != 0

/-- The provisional anchor position of `ParentToEmpty.execute`:
`sum((obj.matrix_world.translation for obj in objs), Vector()) / len(objs)`. -/
def meanLocation (objs : List Obj) : Vec3 :=
  vdivN (objs.foldl (fun a o => vadd a o.matrix_world.translation) Vec3.vzero) objs.length

/-- The mesh-type subset of the selection, in iteration order
(`if obj.type == "MESH"`). -/
def meshesOf (objs : List Obj) : List Obj :=
  objs.filter (fun o => o.type == "MESH")

/-- The anchor location after the bounding-box branch of
`ParentToEmpty.execute`: starts from the mean translation already
written to the empty, and if the mesh subset is non-empty replaces it
according to the chosen placement policy. -/
def anchorLocation (props : PTEProps) (objs : List Obj) : Vec3 :=
  let location := meanLocation objs
  let meshes := meshesOf objs
  if meshes.length != 0 then
    let cs := get_bounding_box meshes
    if props.location == "TOP" then
      vadd cs.1 ⟨.fin 0, .fin 0, XQ.divN cs.2.z 2⟩
    else if props.location == "CENTER" then
      cs.1
    else if props.location == "BOTTOM" then
      vsub cs.1 ⟨.fin 0, .fin 0, XQ.divN cs.2.z 2⟩
    else
      location
  else
    location

/-- The empty as configured by `ParentToEmpty.execute` just before the
re-parenting pass: fresh object with identity world matrix, mean
location applied (line 114), then the policy location applied
(line 130) and the display flags set. -/
def preReparentEmpty (props : PTEProps) (emptyId : Nat) (objs : List Obj) : Obj :=
  { id := emptyId, type := "EMPTY", parent := none,
    matrix_world :=
      apply_location_to_matrix (anchorLocation props objs)
        (apply_location_to_matrix (meanLocation objs) Mat4.idM),
    vertices := [],
    show_name := props.show_name, show_axis := props.show_axis,
    show_in_front := props.show_in_front,
    empty_display_type := "PLAIN_AXES" }

/-- Python `obj.parent in objs` where `objs` is a set of objects:
membership of the (possibly `None`) parent in the selection's ids. -/
def optMem (p : Option Nat) (ids : List Nat) : Bool :=
  match p with
  | none => false
  | some q => ids.contains q

/-- The re-parenting loop of `ParentToEmpty.execute` (lines 136-144).
For each object whose current parent is not in the selection it tracks
the first parent seen while `parent` is still `None`, captures
`matrix_world`, assigns `obj.parent = empty` (whose host-side effect on
the world matrix is the oracle value), then reassigns the captured
`matrix_world`.  Returns the updated objects (in order) and the final
`parent` local variable. -/
def reparentPass (emptyId : Nat) (ids : List Nat) (oracle : Nat → Mat4) :
    List Obj → Option Nat → List Obj × Option Nat
  | [], parent => ([], parent)
  | o :: rest, parent =>
    if optMem o.parent ids then
      let r := reparentPass emptyId ids oracle rest parent
      (o :: r.1, r.2)
    else
      let parent := match parent with
        | none => o.parent
        | some p => some p
      let matrix := o.matrix_world
      let o1 := { o with parent := some emptyId, matrix_world := oracle o.id }
      let o2 := { o1 with matrix_world := matrix }
      let r := reparentPass emptyId ids oracle rest parent
      (o2 :: r.1, r.2)

/-- The observable outcome of `ParentToEmpty.execute`: the selection's
objects after the re-parenting pass, the configured empty, and the
final selection / active object. -/
structure PTEResult where
  objs : List Obj
  empty : Obj
  selectedIds : List Nat
  activeId : Nat
deriving Repr

/-- `ParentToEmpty.execute` over the snapshot `objs` of
`context.selected_objects` (in host iteration order).  `oracle` gives,
per object id, the world matrix the host exposes right after the bare
`obj.parent = empty` assignment, and `emptyOracle` plays the same role
for the final `empty.parent = parent` assignment; both are immediately
overwritten by the captured matrices, as in the source. -/
def ParentToEmpty_execute (props : PTEProps) (emptyId : Nat) (oracle : Nat → Mat4)
    (emptyOracle : Mat4) (objs : List Obj) : PTEResult :=
  let empty := preReparentEmpty props emptyId objs
  let rp := reparentPass emptyId (objs.map (fun o => o.id)) oracle objs none
  let empty :=
    match rp.2 with
    | some p =>
      let matrix := empty.matrix_world
      let e1 := { empty with parent := some p, matrix_world := emptyOracle }
      { e1 with matrix_world := matrix }
    | none => empty
  { objs := rp.1, empty := empty, selectedIds := [emptyId], activeId := emptyId }

/-- Follows the spec's words (§4.3 step 5): "the first-encountered
pre-existing non-null external parent of a top-level Selection member"
— among the members whose parent is not in the selection, the first
parent that is not `None`. -/
def specFirstExternalParent (objs : List Obj) : Option Nat :=
  (objs.filterMap
    (fun o => if optMem o.parent (objs.map (fun o2 => o2.id)) then none else o.parent)).head?

/-! ## Scene graph model for `DeleteRecursive` and `SelectDescendants`

The host scene graph, as far as those operators observe it: a finite
list of object ids and the parent relation.  Blender's
`obj.children_recursive` walks the (acyclic) graph and returns every
transitive descendant. -/

/-- The host scene graph: the ids of the existing objects and the
parent link of each. -/
structure Scene where
  nodes : List Nat
  parent : Nat → Option Nat

/-- The children of node `n`: the existing objects whose parent is `n`. -/
def children (s : Scene) (n : Nat) : List Nat :=
  s.nodes.filter (fun c => s.parent c == some n)

/-- Fuel-bounded walk collecting the descendants of `n`. -/
def descend (s : Scene) : Nat → Nat → List Nat
  | 0, _ => []
  | fuel + 1, n => (children s n).flatMap (fun c => c :: descend s fuel c)

/-- `obj.children_recursive`: all transitive descendants of `n`
(the scene size bounds the depth of any acyclic walk). -/
def children_recursive (s : Scene) (n : Nat) : List Nat :=
  descend s s.nodes.length n

/-- `c` is an existing object whose parent link points to `p`. -/
def ChildOf (s : Scene) (c p : Nat) : Prop :=
  c ∈ s.nodes ∧ s.parent c = some p

/-- `x` is a transitive descendant of `n`: the transitive closure of the
parent→children relation. -/
def Desc (s : Scene) (n x : Nat) : Prop :=
  Relation.TransGen (fun p c => ChildOf s c p) n x

/-- The host guarantees an acyclic scene graph: no object is its own
transitive descendant. -/
def Acyclic (s : Scene) : Prop := ∀ n, ¬ Desc s n n

/-- An explicit descent chain from `n` to `x`: `l` lists the nodes
visited after `n`, each a child of its predecessor, ending at `x`. -/
inductive ReachVia (s : Scene) : Nat → List Nat → Nat → Prop where
  | single {n x : Nat} : ChildOf s x n → ReachVia s n [x] x
  | head {n c x : Nat} {l : List Nat} :
      ChildOf s c n → ReachVia s c l x → ReachVia s n (c :: l) x

/-- The set accumulated by `DeleteRecursive.execute`'s collection loops:
`objs.add(parent)` for each selected object, then `objs.add(child)` for
each of its `children_recursive`. -/
def DeleteRecursive_collect (s : Scene) (selected : List Nat) : Finset Nat :=
  selected.foldl
    (fun objs p => (children_recursive s p).foldl (fun o c => insert c o) (insert p objs))
    ∅

/-- `DeleteRecursive.execute`: remove every collected object from the
scene (`bpy.data.objects.remove(obj)` for each member of the set). -/
def DeleteRecursive_execute (s : Scene) (selected : List Nat) : Scene :=
  { nodes := s.nodes.filter (fun n => n ∉ DeleteRecursive_collect s selected),
    parent := s.parent }

/-- `DeleteRecursive` declares no `poll` classmethod, so the operator
inherits Blender's default and is available regardless of the
selection. -/
def DeleteRecursive_poll (_selected : List Nat) : Bool := true

/-- `SelectDescendants.poll`: `len(context.selected_objects) != 0`. -/
def SelectDescendants_poll (selected : List Nat) : Bool :=
  selected.length != 0

/-- `SelectDescendants.execute`: starting from the selected set, call
`select_set(True)` on every `children_recursive` member of every
selected object (iterating over the snapshot `selected`); returns the
resulting selected set. -/
def SelectDescendants_execute (s : Scene) (selected : List Nat) : Finset Nat :=
  selected.foldl
    (fun sel o => (children_recursive s o).foldl (fun a c => insert c a) sel)
    selected.toFinset

/-! ## Concrete instances used in the testable-property checks -/

/-- A world matrix that is a pure translation by `(x, y, z)`. -/
def transM (x y z : ℚ) : Mat4 :=
  apply_location_to_matrix ⟨.fin x, .fin y, .fin z⟩ Mat4.idM

/-- Mesh object contributing the world-space vertex `(-1, -1, 0)`. -/
def exMesh1 : Obj :=
  { id := 0, type := "MESH", parent := none, matrix_world := Mat4.idM,
    vertices := [⟨.fin (-1), .fin (-1), .fin 0⟩] }

/-- Mesh object contributing the world-space vertex `(1, 1, 2)`. -/
def exMesh2 : Obj :=
  { id := 1, type := "MESH", parent := none, matrix_world := Mat4.idM,
    vertices := [⟨.fin 1, .fin 1, .fin 2⟩] }

/-- A lone non-mesh object at world position `(5, 0, 0)` with no parent. -/
def exSolo : Obj :=
  { id := 0, type := "EMPTY", parent := none, matrix_world := transM 5 0 0,
    vertices := [] }

/-- Non-mesh object at world position `(0, 0, 0)`. -/
def exNonMeshA : Obj :=
  { id := 0, type := "EMPTY", parent := none, matrix_world := transM 0 0 0,
    vertices := [] }

/-- Non-mesh object at world position `(2, 0, 0)`. -/
def exNonMeshB : Obj :=
  { id := 1, type := "EMPTY", parent := none, matrix_world := transM 2 0 0,
    vertices := [] }

/-- A mesh-type object with an empty vertex list. -/
def exNoVertMesh : Obj :=
  { id := 0, type := "MESH", parent := none, matrix_world := Mat4.idM,
    vertices := [] }

/-- The chain scene `A → B → C` with ids `0 → 1 → 2`. -/
def exChain : Scene :=
  { nodes := [0, 1, 2],
    parent := fun n => if n == 1 then some 0 else if n == 2 then some 1 else none }

/-! ## Scalar fold lemmas -/

theorem pymin_pinf_fin (b : ℚ) : XQ.pymin .pinf (.fin b) = .fin b := rfl

theorem pymax_ninf_fin (b : ℚ) : XQ.pymax .ninf (.fin b) = .fin b := rfl

theorem pymin_fin_fin (a b : ℚ) : XQ.pymin (.fin a) (.fin b) = .fin (min a b) := by
  simp only [XQ.pymin, XQ.lt]
  rcases le_or_lt a b with h | h
  · simp [not_lt.mpr h, min_eq_left h]
  · simp [h, min_eq_right h.le]

theorem pymax_fin_fin (a b : ℚ) : XQ.pymax (.fin a) (.fin b) = .fin (max a b) := by
  simp only [XQ.pymax, XQ.lt]
  rcases le_or_lt b a with h | h
  · simp [not_lt.mpr h, max_eq_left h]
  · simp [h, max_eq_right h.le]

theorem foldl_pymin_map_fin (l : List ℚ) (a : ℚ) :
    (l.map XQ.fin).foldl XQ.pymin (.fin a) = .fin (l.foldl min a) := by
  induction l generalizing a with
  | nil => rfl
  | cons b l ih => simp [pymin_fin_fin, ih]

theorem foldl_pymax_map_fin (l : List ℚ) (a : ℚ) :
    (l.map XQ.fin).foldl XQ.pymax (.fin a) = .fin (l.foldl max a) := by
  induction l generalizing a with
  | nil => rfl
  | cons b l ih => simp [pymax_fin_fin, ih]

theorem foldl_min_le_init (l : List ℚ) (a : ℚ) : l.foldl min a ≤ a := by
  induction l generalizing a with
  | nil => simp
  | cons b l ih => exact le_trans (ih (min a b)) (min_le_left a b)

theorem foldl_min_le_mem (l : List ℚ) (a x : ℚ) (h : x ∈ l) : l.foldl min a ≤ x := by
  induction l generalizing a with
  | nil => cases h
  | cons b l ih =>
    rcases List.mem_cons.mp h with rfl | hx
    · exact le_trans (foldl_min_le_init l (min a x)) (min_le_right a x)
    · exact ih (min a b) hx

theorem foldl_min_mem (l : List ℚ) (a : ℚ) : l.foldl min a ∈ a :: l := by
  induction l generalizing a with
  | nil => simp
  | cons b l ih =>
    have h := ih (min a b)
    rw [List.foldl_cons]
    rcases List.mem_cons.mp h with he | hm
    · rw [he]
      rcases min_choice a b with h1 | h1 <;> rw [h1] <;> simp
    · exact List.mem_cons_of_mem _ (List.mem_cons_of_mem _ hm)

theorem le_foldl_max_init (l : List ℚ) (a : ℚ) : a ≤ l.foldl max a := by
  induction l generalizing a with
  | nil => simp
  | cons b l ih => exact le_trans (le_max_left a b) (ih (max a b))

theorem mem_le_foldl_max (l : List ℚ) (a x : ℚ) (h : x ∈ l) : x ≤ l.foldl max a := by
  induction l generalizing a with
  | nil => cases h
  | cons b l ih =>
    rcases List.mem_cons.mp h with rfl | hx
    · exact le_trans (le_max_right a x) (le_foldl_max_init l (max a x))
    · exact ih (max a b) hx

theorem foldl_max_mem (l : List ℚ) (a : ℚ) : l.foldl max a ∈ a :: l := by
  induction l generalizing a with
  | nil => simp
  | cons b l ih =>
    have h := ih (max a b)
    rw [List.foldl_cons]
    rcases List.mem_cons.mp h with he | hm
    · rw [he]
      rcases max_choice a b with h1 | h1 <;> rw [h1] <;> simp
    · exact List.mem_cons_of_mem _ (List.mem_cons_of_mem _ hm)

theorem allFin_eq_map_fin (l : List XQ) (h : ∀ x ∈ l, x.isFin = true) :
    l = (l.map XQ.toQ).map XQ.fin := by
  induction l with
  | nil => rfl
  | cons b l ih =>
    have hb := h b (List.mem_cons_self b l)
    cases b with
    | fin q =>
      have ih' := ih (fun x hx => h x (List.mem_cons_of_mem _ hx))
      simp only [List.map_cons, XQ.toQ]
      rw [← ih']
    | pinf => simp [XQ.isFin] at hb
    | ninf => simp [XQ.isFin] at hb
    | nan => simp [XQ.isFin] at hb

/-- Fold of Python `min` starting at `+inf` over a non-empty all-finite
list: a finite value that is a lower bound and is attained. -/
theorem minfold_spec (l : List XQ) (hne : l ≠ []) (hf : ∀ x ∈ l, x.isFin = true) :
    ∃ mn : ℚ, l.foldl XQ.pymin .pinf = .fin mn ∧
      (∀ x ∈ l, mn ≤ x.toQ) ∧ (∃ x ∈ l, x.toQ = mn) := by
  rcases l with _ | ⟨b, rest⟩
  · exact absurd rfl hne
  · have hb := hf b (List.mem_cons_self b rest)
    cases b with
    | fin q =>
      have hrest : ∀ x ∈ rest, x.isFin = true :=
        fun x hx => hf x (List.mem_cons_of_mem _ hx)
      refine ⟨(rest.map XQ.toQ).foldl min q, ?_, ?_, ?_⟩
      · have h1 : ((XQ.fin q) :: rest).foldl XQ.pymin .pinf
            = rest.foldl XQ.pymin (.fin q) := by
          simp [List.foldl_cons, pymin_pinf_fin]
        rw [h1, allFin_eq_map_fin rest hrest, foldl_pymin_map_fin]
        rw [List.map_map, List.map_map]
        exact congrArg XQ.fin (congrArg _ (List.map_congr_left (fun x _ => rfl)).symm)
      · intro x hx
        rcases List.mem_cons.mp hx with rfl | hx
        · exact foldl_min_le_init _ _
        · exact foldl_min_le_mem _ _ _ (List.mem_map_of_mem XQ.toQ hx)
      · have hm := foldl_min_mem (rest.map XQ.toQ) q
        rcases List.mem_cons.mp hm with he | hm
        · exact ⟨.fin q, List.mem_cons_self _ _, he.symm⟩
        · rcases List.mem_map.mp hm with ⟨x, hx, hxe⟩
          exact ⟨x, List.mem_cons_of_mem _ hx, hxe⟩
    | pinf => simp [XQ.isFin] at hb
    | ninf => simp [XQ.isFin] at hb
    | nan => simp [XQ.isFin] at hb

/-- Fold of Python `max` starting at `-inf` over a non-empty all-finite
list: a finite value that is an upper bound and is attained. -/
theorem maxfold_spec (l : List XQ) (hne : l ≠ []) (hf : ∀ x ∈ l, x.isFin = true) :
    ∃ mx : ℚ, l.foldl XQ.pymax .ninf = .fin mx ∧
      (∀ x ∈ l, x.toQ ≤ mx) ∧ (∃ x ∈ l, x.toQ = mx) := by
  rcases l with _ | ⟨b, rest⟩
  · exact absurd rfl hne
  · have hb := hf b (List.mem_cons_self b rest)
    cases b with
    | fin q =>
      have hrest : ∀ x ∈ rest, x.isFin = true :=
        fun x hx => hf x (List.mem_cons_of_mem _ hx)
      refine ⟨(rest.map XQ.toQ).foldl max q, ?_, ?_, ?_⟩
      · have h1 : ((XQ.fin q) :: rest).foldl XQ.pymax .ninf
            = rest.foldl XQ.pymax (.fin q) := by
          simp [List.foldl_cons, pymax_ninf_fin]
        rw [h1, allFin_eq_map_fin rest hrest, foldl_pymax_map_fin]
        rw [List.map_map, List.map_map]
        exact congrArg XQ.fin (congrArg _ (List.map_congr_left (fun x _ => rfl)).symm)
      · intro x hx
        rcases List.mem_cons.mp hx with rfl | hx
        · exact le_foldl_max_init _ _
        · exact mem_le_foldl_max _ _ _ (List.mem_map_of_mem XQ.toQ hx)
      · have hm := foldl_max_mem (rest.map XQ.toQ) q
        rcases List.mem_cons.mp hm with he | hm
        · exact ⟨.fin q, List.mem_cons_self _ _, he.symm⟩
        · rcases List.mem_map.mp hm with ⟨x, hx, hxe⟩
          exact ⟨x, List.mem_cons_of_mem _ hx, hxe⟩
    | pinf => simp [XQ.isFin] at hb
    | ninf => simp [XQ.isFin] at hb
    | nan => simp [XQ.isFin] at hb

/-! ## Bounding-box decomposition -/

theorem foldl_flatMap {α β γ : Type} (f : β → γ → β) (g : α → List γ)
    (l : List α) (a : β) :
    (l.flatMap g).foldl f a = l.foldl (fun a x => (g x).foldl f a) a := by
  induction l generalizing a with
  | nil => rfl
  | cons b l ih => simp [List.foldl_append, ih]

theorem bboxMinMax_eq_foldl (objs : List Obj) :
    bboxMinMax objs =
      (worldVerts objs).foldl bboxStep (⟨.pinf, .pinf, .pinf⟩, ⟨.ninf, .ninf, .ninf⟩) := by
  unfold bboxMinMax worldVerts
  rw [foldl_flatMap]
  simp [List.foldl_map]

theorem bboxFold_components (ws : List Vec3) (mn mx : Vec3) :
    (ws.foldl bboxStep (mn, mx)).1 =
      ⟨(ws.map Vec3.x).foldl XQ.pymin mn.x,
       (ws.map Vec3.y).foldl XQ.pymin mn.y,
       (ws.map Vec3.z).foldl XQ.pymin mn.z⟩ ∧
    (ws.foldl bboxStep (mn, mx)).2 =
      ⟨(ws.map Vec3.x).foldl XQ.pymax mx.x,
       (ws.map Vec3.y).foldl XQ.pymax mx.y,
       (ws.map Vec3.z).foldl XQ.pymax mx.z⟩ := by
  induction ws generalizing mn mx with
  | nil => exact ⟨rfl, rfl⟩
  | cons w ws ih =>
    simp only [List.foldl_cons, List.map_cons, bboxStep]
    exact ih _ _

/-! ## Sum-fold lemmas for the mean location -/

theorem xadd_fin_fin (a b : ℚ) : XQ.add (.fin a) (.fin b) = .fin (a + b) := rfl

theorem foldl_xadd_map_fin (l : List ℚ) (a : ℚ) :
    (l.map XQ.fin).foldl XQ.add (.fin a) = .fin (a + l.sum) := by
  induction l generalizing a with
  | nil => simp
  | cons b l ih =>
    simp only [List.map_cons, List.foldl_cons, xadd_fin_fin, ih, List.sum_cons]
    rw [add_assoc]

theorem foldl_vadd_components {α : Type} (l : List α) (f : α → Vec3) (v : Vec3) :
    l.foldl (fun a o => vadd a (f o)) v =
      ⟨l.foldl (fun a o => XQ.add a (f o).x) v.x,
       l.foldl (fun a o => XQ.add a (f o).y) v.y,
       l.foldl (fun a o => XQ.add a (f o).z) v.z⟩ := by
  induction l generalizing v with
  | nil => rfl
  | cons b l ih =>
    simp only [List.foldl_cons, vadd]
    exact ih _

/-! ## Scene-graph lemmas: `children_recursive` computes exactly the
transitive descendants on acyclic scenes -/

theorem mem_children_iff (s : Scene) (c n : Nat) :
    c ∈ children s n ↔ ChildOf s c n := by
  simp [children, ChildOf, List.mem_filter]

theorem descend_sound (s : Scene) (fuel : Nat) :
    ∀ n x, x ∈ descend s fuel n → Desc s n x := by
  induction fuel with
  | zero => intro n x h; cases h
  | succ fuel ih =>
    intro n x h
    rw [descend] at h
    rcases List.mem_flatMap.mp h with ⟨c, hc, hx⟩
    have hcn : ChildOf s c n := (mem_children_iff s c n).mp hc
    rcases List.mem_cons.mp hx with rfl | hx
    · exact Relation.TransGen.single hcn
    · exact Relation.TransGen.head hcn (ih c x hx)

theorem reachVia_nodes (s : Scene) {n x : Nat} {l : List Nat}
    (h : ReachVia s n l x) : ∀ b ∈ l, b ∈ s.nodes := by
  induction h with
  | single hc => intro b hb; rcases List.mem_cons.mp hb with rfl | hb
                 · exact hc.1
                 · cases hb
  | head hc _ ih =>
    intro b hb
    rcases List.mem_cons.mp hb with rfl | hb
    · exact hc.1
    · exact ih b hb

theorem reachVia_desc_mem (s : Scene) {n x : Nat} {l : List Nat}
    (h : ReachVia s n l x) : ∀ b ∈ l, Desc s n b := by
  induction h with
  | single hc => intro b hb; rcases List.mem_cons.mp hb with rfl | hb
                 · exact Relation.TransGen.single hc
                 · cases hb
  | head hc _ ih =>
    intro b hb
    rcases List.mem_cons.mp hb with rfl | hb
    · exact Relation.TransGen.single hc
    · exact Relation.TransGen.head hc (ih b hb)

theorem reachVia_nodup (s : Scene) (hac : Acyclic s) {n x : Nat} {l : List Nat}
    (h : ReachVia s n l x) : l.Nodup := by
  induction h with
  | single _ => simp
  | head hc hr ih =>
    refine List.nodup_cons.mpr ⟨?_, ih⟩
    intro hmem
    exact hac _ (reachVia_desc_mem s hr _ hmem)

theorem desc_reachVia (s : Scene) {n x : Nat} (h : Desc s n x) :
    ∃ l, ReachVia s n l x := by
  induction h using Relation.TransGen.head_induction_on with
  | base hc => exact ⟨[x], ReachVia.single hc⟩
  | ih hc _ ihp =>
    rcases ihp with ⟨l, hl⟩
    exact ⟨_ :: l, ReachVia.head hc hl⟩

theorem reachVia_length_le (s : Scene) (hnd : s.nodes.Nodup) (hac : Acyclic s)
    {n x : Nat} {l : List Nat} (h : ReachVia s n l x) :
    l.length ≤ s.nodes.length := by
  have hsub : l.toFinset ⊆ s.nodes.toFinset := by
    intro b hb
    exact List.mem_toFinset.mpr (reachVia_nodes s h b (List.mem_toFinset.mp hb))
  have h1 : l.toFinset.card = l.length := List.toFinset_card_of_nodup (reachVia_nodup s hac h)
  have h2 : s.nodes.toFinset.card = s.nodes.length := List.toFinset_card_of_nodup hnd
  calc l.length = l.toFinset.card := h1.symm
    _ ≤ s.nodes.toFinset.card := Finset.card_le_card hsub
    _ = s.nodes.length := h2

theorem reachVia_descend (s : Scene) {n x : Nat} {l : List Nat}
    (h : ReachVia s n l x) : ∀ fuel, l.length ≤ fuel → x ∈ descend s fuel n := by
  induction h with
  | @single m y hc =>
    intro fuel hf
    rcases fuel with _ | fuel
    · simp at hf
    · rw [descend]
      exact List.mem_flatMap.mpr ⟨y, (mem_children_iff s y m).mpr hc, List.mem_cons_self _ _⟩
  | @head m c y l2 hc hr ih =>
    intro fuel hf
    rcases fuel with _ | fuel
    · simp at hf
    · rw [descend]
      refine List.mem_flatMap.mpr ⟨c, (mem_children_iff s c m).mpr hc, ?_⟩
      have hy : y ∈ descend s fuel c := by
        refine ih fuel ?_
        simpa using Nat.succ_le_succ_iff.mp (by simpa using hf)
      exact List.mem_cons_of_mem _ hy

/-- On a well-formed (duplicate-free, acyclic) scene,
`children_recursive` returns exactly the transitive descendants. -/
theorem mem_children_recursive (s : Scene) (hnd : s.nodes.Nodup) (hac : Acyclic s)
    (n x : Nat) : x ∈ children_recursive s n ↔ Desc s n x := by
  constructor
  · exact descend_sound s s.nodes.length n x
  · intro h
    rcases desc_reachVia s h with ⟨l, hl⟩
    exact reachVia_descend s hl s.nodes.length (reachVia_length_le s hnd hac hl)

/-! ## Set-accumulator lemmas for the collectors -/

theorem mem_foldl_insert (l : List Nat) (acc : Finset Nat) (x : Nat) :
    x ∈ l.foldl (fun a c => insert c a) acc ↔ x ∈ acc ∨ x ∈ l := by
  induction l generalizing acc with
  | nil => simp
  | cons b l ih =>
    rw [List.foldl_cons, ih]
    simp only [Finset.mem_insert, List.mem_cons]
    tauto

theorem mem_collect_aux (s : Scene) (sel : List Nat) (acc : Finset Nat) (x : Nat) :
    x ∈ sel.foldl
        (fun objs p => (children_recursive s p).foldl (fun o c => insert c o) (insert p objs))
        acc
      ↔ x ∈ acc ∨ x ∈ sel ∨ ∃ r ∈ sel, x ∈ children_recursive s r := by
  induction sel generalizing acc with
  | nil => simp
  | cons p sel ih =>
    rw [List.foldl_cons, ih, mem_foldl_insert]
    simp only [Finset.mem_insert, List.mem_cons]
    constructor
    · rintro (((h | h) | h) | h | ⟨r, hr, hx⟩)
      · exact Or.inr (Or.inl (Or.inl h))
      · exact Or.inl h
      · exact Or.inr (Or.inr ⟨p, Or.inl rfl, h⟩)
      · exact Or.inr (Or.inl (Or.inr h))
      · exact Or.inr (Or.inr ⟨r, Or.inr hr, hx⟩)
    · rintro (h | (h | h) | ⟨r, (rfl | hr), hx⟩)
      · exact Or.inl (Or.inl (Or.inr h))
      · exact Or.inl (Or.inl (Or.inl h))
      · exact Or.inr (Or.inl h)
      · exact Or.inl (Or.inr hx)
      · exact Or.inr (Or.inr ⟨r, hr, hx⟩)

theorem mem_deleteRecursive_collect (s : Scene) (sel : List Nat) (x : Nat) :
    x ∈ DeleteRecursive_collect s sel
      ↔ x ∈ sel ∨ ∃ r ∈ sel, x ∈ children_recursive s r := by
  rw [DeleteRecursive_collect, mem_collect_aux]
  simp

theorem mem_selectDescendants_aux (s : Scene) (sel : List Nat) (acc : Finset Nat) (x : Nat) :
    x ∈ sel.foldl (fun a o => (children_recursive s o).foldl (fun a c => insert c a) a) acc
      ↔ x ∈ acc ∨ ∃ r ∈ sel, x ∈ children_recursive s r := by
  induction sel generalizing acc with
  | nil => simp
  | cons p sel ih =>
    rw [List.foldl_cons, ih, mem_foldl_insert]
    simp only [List.mem_cons]
    constructor
    · rintro ((h | h) | ⟨r, hr, hx⟩)
      · exact Or.inl h
      · exact Or.inr ⟨p, Or.inl rfl, h⟩
      · exact Or.inr ⟨r, Or.inr hr, hx⟩
    · rintro (h | ⟨r, (rfl | hr), hx⟩)
      · exact Or.inl (Or.inl h)
      · exact Or.inl (Or.inr hx)
      · exact Or.inr ⟨r, hr, hx⟩

theorem mem_selectDescendants (s : Scene) (sel : List Nat) (x : Nat) :
    x ∈ SelectDescendants_execute s sel
      ↔ x ∈ sel ∨ ∃ r ∈ sel, x ∈ children_recursive s r := by
  rw [SelectDescendants_execute, mem_selectDescendants_aux]
  simp

theorem children_recursive_of_no_children (s : Scene) (n : Nat)
    (h : children s n = []) : children_recursive s n = [] := by
  rw [children_recursive]
  cases s.nodes.length with
  | zero => rfl
  | succ fuel => rw [descend, h]; rfl

/-! ## The concrete chain scene `0 → 1 → 2` -/

theorem exChain_childOf_lt {c p : Nat} (h : ChildOf exChain c p) : p < c := by
  rcases h with ⟨hc, hp⟩
  have hc3 : c = 0 ∨ c = 1 ∨ c = 2 := by simpa [exChain] using hc
  simp only [exChain] at hp
  rcases hc3 with rfl | rfl | rfl
  · simp at hp
  · simp at hp; omega
  · simp at hp; omega

theorem exChain_desc_lt {a b : Nat} (h : Desc exChain a b) : a < b := by
  induction h with
  | single h1 => exact exChain_childOf_lt h1
  | tail _ h2 ih => exact lt_trans ih (exChain_childOf_lt h2)

theorem exChain_acyclic : Acyclic exChain := by
  intro n h
  exact lt_irrefl n (exChain_desc_lt h)

theorem exChain_nodup : exChain.nodes.Nodup := by
  simp [exChain]

/-! ## Re-parenting pass lemmas -/

theorem reparentPass_objs (emptyId : Nat) (ids : List Nat) (oracle : Nat → Mat4)
    (l : List Obj) (p : Option Nat) :
    (reparentPass emptyId ids oracle l p).1 =
      l.map (fun o => if optMem o.parent ids then o else { o with parent := some emptyId }) := by
  induction l generalizing p with
  | nil => rfl
  | cons o l ih =>
    simp only [reparentPass]
    by_cases h : optMem o.parent ids
    · simp [h, ih]
    · simp [h, ih]

theorem reparentPass_acc_some (emptyId : Nat) (ids : List Nat) (oracle : Nat → Mat4)
    (l : List Obj) (p : Nat) :
    (reparentPass emptyId ids oracle l (some p)).2 = some p := by
  induction l with
  | nil => rfl
  | cons o l ih =>
    simp only [reparentPass]
    by_cases h : optMem o.parent ids
    · simp [h, ih]
    · simp [h, ih]

theorem reparentPass_acc_none (emptyId : Nat) (ids : List Nat) (oracle : Nat → Mat4)
    (l : List Obj) :
    (reparentPass emptyId ids oracle l none).2 =
      l.findSome? (fun o => if optMem o.parent ids then none else o.parent) := by
  induction l with
  | nil => rfl
  | cons o l ih =>
    simp only [reparentPass]
    by_cases h : optMem o.parent ids
    · simp [h, ih, List.findSome?]
    · cases hp : o.parent with
      | none =>
        rw [hp] at h
        simp [hp, h, optMem, ih, List.findSome?]
      | some q =>
        rw [hp] at h
        simp [hp, h, reparentPass_acc_some, List.findSome?]

/-! ## `ParentToEmpty.execute` observations -/

theorem execute_objs (props : PTEProps) (emptyId : Nat) (oracle : Nat → Mat4)
    (emptyOracle : Mat4) (objs : List Obj) :
    (ParentToEmpty_execute props emptyId oracle emptyOracle objs).objs =
      objs.map (fun o =>
        if optMem o.parent (objs.map (fun o2 => o2.id)) then o
        else { o with parent := some emptyId }) := by
  rw [ParentToEmpty_execute]
  cases h : (reparentPass emptyId (objs.map (fun o => o.id)) oracle objs none).2 with
  | none => simp [h, ← reparentPass_objs emptyId _ oracle objs none, h]
  | some p => simp [h, ← reparentPass_objs emptyId _ oracle objs none, h]

theorem execute_empty_matrix (props : PTEProps) (emptyId : Nat) (oracle : Nat → Mat4)
    (emptyOracle : Mat4) (objs : List Obj) :
    (ParentToEmpty_execute props emptyId oracle emptyOracle objs).empty.matrix_world =
      (preReparentEmpty props emptyId objs).matrix_world := by
  rw [ParentToEmpty_execute]
  cases h : (reparentPass emptyId (objs.map (fun o => o.id)) oracle objs none).2 with
  | none => simp [h]
  | some p => simp [h]

theorem preReparent_translation (props : PTEProps) (emptyId : Nat) (objs : List Obj) :
    (preReparentEmpty props emptyId objs).matrix_world.translation =
      anchorLocation props objs := rfl

theorem execute_translation (props : PTEProps) (emptyId : Nat) (oracle : Nat → Mat4)
    (emptyOracle : Mat4) (objs : List Obj) :
    (ParentToEmpty_execute props emptyId oracle emptyOracle objs).empty.matrix_world.translation =
      anchorLocation props objs := by
  rw [execute_empty_matrix, preReparent_translation]

theorem execute_empty_parent (props : PTEProps) (emptyId : Nat) (oracle : Nat → Mat4)
    (emptyOracle : Mat4) (objs : List Obj) :
    (ParentToEmpty_execute props emptyId oracle emptyOracle objs).empty.parent =
      specFirstExternalParent objs := by
  rw [ParentToEmpty_execute, specFirstExternalParent, List.filterMap_head?,
    ← reparentPass_acc_none emptyId (objs.map (fun o2 => o2.id)) oracle objs]
  cases h : (reparentPass emptyId (objs.map (fun o2 => o2.id)) oracle objs none).2 with
  | none => simp [h, preReparentEmpty]
  | some p => simp [h]

theorem anchorLocation_no_mesh (props : PTEProps) (objs : List Obj)
    (h : meshesOf objs = []) : anchorLocation props objs = meanLocation objs := by
  rw [anchorLocation, h]
  simp

theorem divN_fin (q : ℚ) (n : Nat) (h : n ≠ 0) :
    XQ.divN (.fin q) n = .fin (q / (n : ℚ)) := by
  cases n with
  | zero => exact absurd rfl h
  | succ m => rfl

theorem foldl_xadd_all_fin (l : List XQ) (hf : ∀ x ∈ l, x.isFin = true) :
    l.foldl XQ.add (.fin 0) = .fin ((l.map XQ.toQ).sum) := by
  conv_lhs => rw [allFin_eq_map_fin l hf]
  rw [foldl_xadd_map_fin, zero_add]

/-! ## Claim theorems -/

/-- C10: non-emptiness of the mesh collection alone does not guarantee a
well-defined bounding box.  For the non-empty input `[exNoVertMesh]`
(one mesh-type object with zero vertices) the accumulated minimum stays
at `+inf` and the maximum at `-inf`, so `get_bounding_box` returns a
`nan` center and a `-inf` extent, the mesh-count guard of
`ParentToEmpty.execute` still passes, and the anchor is placed at the
non-finite center. -/
theorem zero_vertex_mesh_degenerate_bbox :
    bboxMinMax [exNoVertMesh] = (⟨.pinf, .pinf, .pinf⟩, ⟨.ninf, .ninf, .ninf⟩) ∧
    get_bounding_box [exNoVertMesh] = (⟨.nan, .nan, .nan⟩, ⟨.ninf, .ninf, .ninf⟩) ∧
    meshesOf [exNoVertMesh] ≠ [] ∧
    (ParentToEmpty_execute {} 1 (fun _ => Mat4.idM) Mat4.idM
        [exNoVertMesh]).empty.matrix_world.translation = ⟨.nan, .nan, .nan⟩ ∧
    (⟨XQ.nan, XQ.nan, XQ.nan⟩ : Vec3).finB = false := by
  refine ⟨rfl, rfl, ?_, ?_, rfl⟩
  · simp [meshesOf, exNoVertMesh]
  · rw [execute_translation]
    simp [anchorLocation, meshesOf, exNoVertMesh, get_bounding_box, bboxMinMax,
      vadd, vsub, vdivN, XQ.add, XQ.sub, XQ.neg, XQ.divN]

/-- C9 counterexample: the claim says all three operators carry a poll
check that fails on an empty selection, but `DeleteRecursive` defines no
`poll` classmethod at all — its inherited poll accepts the empty
selection. -/
theorem delete_recursive_poll_accepts_empty : DeleteRecursive_poll [] = true := rfl

/-- C9 (amended): `ParentToEmpty` and `SelectDescendants` enforce the
non-empty-selection precondition through poll checks that succeed
exactly on non-empty selections, and under that precondition the
division by the selection size in `ParentToEmpty` is never a division
by zero; `DeleteRecursive` defines no poll (it is always enabled), and
its `execute` on an empty selection removes nothing. -/
theorem poll_preconditions (selObjs : List Obj) (selIds : List Nat) (s : Scene) :
    (ParentToEmpty_poll selObjs = true ↔ selObjs ≠ []) ∧
    (SelectDescendants_poll selIds = true ↔ selIds ≠ []) ∧
    DeleteRecursive_poll selIds = true ∧
    (ParentToEmpty_poll selObjs = true → selObjs.length ≠ 0) ∧
    (DeleteRecursive_execute s []).nodes = s.nodes := by
  refine ⟨?_, ?_, rfl, ?_, ?_⟩
  · simp [ParentToEmpty_poll, List.length_eq_zero]
  · simp [SelectDescendants_poll, List.length_eq_zero]
  · intro h
    simpa [ParentToEmpty_poll] using h
  · simp [DeleteRecursive_execute, DeleteRecursive_collect]

/-- C9 witness: the amended statement at the concrete inputs
`[exSolo]`, `[0]`, `exChain`. -/
theorem poll_preconditions_witness :
    (ParentToEmpty_poll [exSolo] = true ↔ [exSolo] ≠ []) ∧
    (SelectDescendants_poll [0] = true ↔ ([0] : List Nat) ≠ []) ∧
    DeleteRecursive_poll [0] = true ∧
    (ParentToEmpty_poll [exSolo] = true → ([exSolo] : List Obj).length ≠ 0) ∧
    (DeleteRecursive_execute exChain []).nodes = exChain.nodes :=
  poll_preconditions [exSolo] [0] exChain

/-- C6: the recursive subtree collector of `DeleteRecursive` computes
exactly the union of the roots and all their transitive descendants,
with each node appearing at most once (the accumulator is a set), and
`DeleteRecursive.execute` removes precisely this set from the scene;
on the chain `0 → 1 → 2`, roots `[0]` and roots `[0, 1]` both collect
`{0, 1, 2}`, and an empty input collects the empty set. -/
theorem delete_recursive_collects_closure :
    (∀ (s : Scene) (roots : List Nat) (x : Nat), s.nodes.Nodup → Acyclic s →
      ((x ∈ DeleteRecursive_collect s roots ↔ x ∈ roots ∨ ∃ r ∈ roots, Desc s r x) ∧
       (x ∈ (DeleteRecursive_execute s roots).nodes ↔
         x ∈ s.nodes ∧ ¬ (x ∈ roots ∨ ∃ r ∈ roots, Desc s r x)))) ∧
    DeleteRecursive_collect exChain [] = ∅ ∧
    DeleteRecursive_collect exChain [0] = {0, 1, 2} ∧
    DeleteRecursive_collect exChain [0, 1] = {0, 1, 2} := by
  refine ⟨?_, rfl, by decide, by decide⟩
  intro s roots x hnd hac
  have hch : ∀ r, x ∈ children_recursive s r ↔ Desc s r x :=
    fun r => mem_children_recursive s hnd hac r x
  constructor
  · rw [mem_deleteRecursive_collect]
    simp only [hch]
  · rw [DeleteRecursive_execute]
    simp only [List.mem_filter, decide_eq_true_eq, mem_deleteRecursive_collect, hch]

/-- C6 witness: the characterization applied to the chain scene with
roots `[0]` at node `2`. -/
theorem delete_recursive_collects_closure_witness :
    ((2 ∈ DeleteRecursive_collect exChain [0] ↔
        2 ∈ ([0] : List Nat) ∨ ∃ r ∈ ([0] : List Nat), Desc exChain r 2) ∧
     (2 ∈ (DeleteRecursive_execute exChain [0]).nodes ↔
        2 ∈ exChain.nodes ∧ ¬ (2 ∈ ([0] : List Nat) ∨ ∃ r ∈ ([0] : List Nat), Desc exChain r 2))) :=
  delete_recursive_collects_closure.1 exChain [0] 2 exChain_nodup exChain_acyclic

/-- C5: when the selection contains no mesh-type node, the bounding-box
branch does not run and the anchor keeps the mean-translation position
from step 1. -/
theorem no_mesh_keeps_mean_anchor (props : PTEProps) (emptyId : Nat)
    (oracle : Nat → Mat4) (emptyOracle : Mat4) (objs : List Obj)
    (hne : objs ≠ []) (hm : meshesOf objs = []) :
    (ParentToEmpty_execute props emptyId oracle emptyOracle objs).empty.matrix_world.translation
      = meanLocation objs := by
  rw [execute_translation, anchorLocation_no_mesh props objs hm]

/-- C5 witness: two non-mesh objects. -/
theorem no_mesh_keeps_mean_anchor_witness :
    (ParentToEmpty_execute {} 2 (fun _ => Mat4.idM) Mat4.idM
        [exNonMeshA, exNonMeshB]).empty.matrix_world.translation
      = meanLocation [exNonMeshA, exNonMeshB] :=
  no_mesh_keeps_mean_anchor {} 2 (fun _ => Mat4.idM) Mat4.idM [exNonMeshA, exNonMeshB]
    (by simp) (by simp [meshesOf, exNonMeshA, exNonMeshB])

/-- C1: in the re-parenting pass of `ParentToEmpty.execute`, every
selected object whose current parent is not itself in the selection gets
the new empty as parent, and its world matrix immediately afterwards
equals the world matrix captured just before re-parenting — for every
host behaviour (`oracle`) of the bare parent assignment. -/
theorem reparent_preserves_world_transform
    (props : PTEProps) (emptyId : Nat) (oracle : Nat → Mat4) (emptyOracle : Mat4)
    (objs : List Obj) (i : Nat) (hi : i < objs.length)
    (h : optMem (objs.get ⟨i, hi⟩).parent (objs.map (fun o => o.id)) = false) :
    ∃ hj : i < (ParentToEmpty_execute props emptyId oracle emptyOracle objs).objs.length,
      ((ParentToEmpty_execute props emptyId oracle emptyOracle objs).objs.get ⟨i, hj⟩).parent
          = some emptyId ∧
      ((ParentToEmpty_execute props emptyId oracle emptyOracle objs).objs.get ⟨i, hj⟩).matrix_world
          = (objs.get ⟨i, hi⟩).matrix_world := by
  have he := execute_objs props emptyId oracle emptyOracle objs
  refine ⟨by simp only [he, List.length_map]; exact hi, ?_, ?_⟩ <;>
    simp only [he, List.get_eq_getElem, List.getElem_map] <;>
    simp only [List.get_eq_getElem] at h <;>
    simp [h]

/-- C1 witness: a lone parentless object at world position `(5, 0, 0)`
keeps its world matrix (hence its world position) after being parented
to the new empty. -/
theorem reparent_preserves_world_transform_witness :
    optMem (([exSolo] : List Obj).get ⟨0, Nat.one_pos⟩).parent
        ([exSolo].map (fun o => o.id)) = false ∧
    exSolo.matrix_world.translation = ⟨.fin 5, .fin 0, .fin 0⟩ ∧
    ∃ hj : 0 < (ParentToEmpty_execute {} 1 (fun _ => Mat4.idM) Mat4.idM [exSolo]).objs.length,
      ((ParentToEmpty_execute {} 1 (fun _ => Mat4.idM) Mat4.idM
          [exSolo]).objs.get ⟨0, hj⟩).parent = some 1 ∧
      ((ParentToEmpty_execute {} 1 (fun _ => Mat4.idM) Mat4.idM
          [exSolo]).objs.get ⟨0, hj⟩).matrix_world
        = (([exSolo] : List Obj).get ⟨0, Nat.one_pos⟩).matrix_world :=
  ⟨rfl, rfl,
    reparent_preserves_world_transform {} 1 (fun _ => Mat4.idM) Mat4.idM [exSolo]
      0 Nat.one_pos rfl⟩

/-- C3: when the mesh subset of the selection is non-empty, the final
anchor position is the caller-chosen placement policy applied to the
mesh subset's bounding box — `TOP` is center plus half the extent along
`z`, `CENTER` is the center, `BOTTOM` is center minus half the extent
along `z`; on the concrete bounding box with center `(0,0,1)` and
extent `(2,2,2)` these give `(0,0,2)`, `(0,0,1)` and `(0,0,0)`. -/
theorem anchor_placement_policy :
    (∀ (props : PTEProps) (emptyId : Nat) (oracle : Nat → Mat4) (emptyOracle : Mat4)
        (objs : List Obj), meshesOf objs ≠ [] →
      ((props.location = "TOP" →
        (ParentToEmpty_execute props emptyId oracle emptyOracle objs).empty.matrix_world.translation =
          vadd (get_bounding_box (meshesOf objs)).1
            ⟨.fin 0, .fin 0, XQ.divN (get_bounding_box (meshesOf objs)).2.z 2⟩) ∧
       (props.location = "CENTER" →
        (ParentToEmpty_execute props emptyId oracle emptyOracle objs).empty.matrix_world.translation =
          (get_bounding_box (meshesOf objs)).1) ∧
       (props.location = "BOTTOM" →
        (ParentToEmpty_execute props emptyId oracle emptyOracle objs).empty.matrix_world.translation =
          vsub (get_bounding_box (meshesOf objs)).1
            ⟨.fin 0, .fin 0, XQ.divN (get_bounding_box (meshesOf objs)).2.z 2⟩))) ∧
    (ParentToEmpty_execute { location := "TOP" } 2 (fun _ => Mat4.idM) Mat4.idM
        [exMesh1, exMesh2]).empty.matrix_world.translation = ⟨.fin 0, .fin 0, .fin 2⟩ ∧
    (ParentToEmpty_execute { location := "CENTER" } 2 (fun _ => Mat4.idM) Mat4.idM
        [exMesh1, exMesh2]).empty.matrix_world.translation = ⟨.fin 0, .fin 0, .fin 1⟩ ∧
    (ParentToEmpty_execute { location := "BOTTOM" } 2 (fun _ => Mat4.idM) Mat4.idM
        [exMesh1, exMesh2]).empty.matrix_world.translation = ⟨.fin 0, .fin 0, .fin 0⟩ := by
  have hgen : ∀ (props : PTEProps) (emptyId : Nat) (oracle : Nat → Mat4) (emptyOracle : Mat4)
      (objs : List Obj), meshesOf objs ≠ [] →
      ((props.location = "TOP" →
        (ParentToEmpty_execute props emptyId oracle emptyOracle objs).empty.matrix_world.translation =
          vadd (get_bounding_box (meshesOf objs)).1
            ⟨.fin 0, .fin 0, XQ.divN (get_bounding_box (meshesOf objs)).2.z 2⟩) ∧
       (props.location = "CENTER" →
        (ParentToEmpty_execute props emptyId oracle emptyOracle objs).empty.matrix_world.translation =
          (get_bounding_box (meshesOf objs)).1) ∧
       (props.location = "BOTTOM" →
        (ParentToEmpty_execute props emptyId oracle emptyOracle objs).empty.matrix_world.translation =
          vsub (get_bounding_box (meshesOf objs)).1
            ⟨.fin 0, .fin 0, XQ.divN (get_bounding_box (meshesOf objs)).2.z 2⟩)) := by
    intro props emptyId oracle emptyOracle objs hm
    have ht := execute_translation props emptyId oracle emptyOracle objs
    have hlen : ((meshesOf objs).length != 0) = true := by
      simpa [List.length_eq_zero] using hm
    refine ⟨?_, ?_, ?_⟩ <;> intro hp <;> rw [ht, anchorLocation] <;> simp [hlen, hp]
  have hbb : get_bounding_box [exMesh1, exMesh2] =
      (⟨.fin 0, .fin 0, .fin 1⟩, ⟨.fin 2, .fin 2, .fin 2⟩) := by
    norm_num [get_bounding_box, bboxMinMax, bboxStep, exMesh1, exMesh2, Mat4.mulPoint, Mat4.idM,
      XQ.mul, XQ.add, XQ.pymin, XQ.pymax, XQ.lt, vadd, vsub, vdivN, XQ.divN, XQ.sub, XQ.neg]
  have hmesh : meshesOf [exMesh1, exMesh2] = [exMesh1, exMesh2] := by
    norm_num [meshesOf, exMesh1, exMesh2]
  have hne : meshesOf [exMesh1, exMesh2] ≠ [] := by rw [hmesh]; simp
  refine ⟨hgen, ?_, ?_, ?_⟩
  · have h := (hgen { location := "TOP" } 2 (fun _ => Mat4.idM) Mat4.idM
      [exMesh1, exMesh2] hne).1 rfl
    rw [h, hmesh, hbb]
    norm_num [vadd, XQ.add, XQ.divN]
  · have h := (hgen { location := "CENTER" } 2 (fun _ => Mat4.idM) Mat4.idM
      [exMesh1, exMesh2] hne).2.1 rfl
    rw [h, hmesh, hbb]
  · have h := (hgen { location := "BOTTOM" } 2 (fun _ => Mat4.idM) Mat4.idM
      [exMesh1, exMesh2] hne).2.2 rfl
    rw [h, hmesh, hbb]
    norm_num [vsub, XQ.sub, XQ.neg, XQ.add, XQ.divN]

/-- C3 witness: the general policy statement applied to the concrete
two-mesh selection. -/
theorem anchor_placement_policy_witness :
    meshesOf [exMesh1, exMesh2] ≠ [] ∧
    ((({ location := "TOP" } : PTEProps).location = "TOP" →
      (ParentToEmpty_execute { location := "TOP" } 2 (fun _ => Mat4.idM) Mat4.idM
          [exMesh1, exMesh2]).empty.matrix_world.translation =
        vadd (get_bounding_box (meshesOf [exMesh1, exMesh2])).1
          ⟨.fin 0, .fin 0, XQ.divN (get_bounding_box (meshesOf [exMesh1, exMesh2])).2.z 2⟩) ∧
     (({ location := "TOP" } : PTEProps).location = "CENTER" →
      (ParentToEmpty_execute { location := "TOP" } 2 (fun _ => Mat4.idM) Mat4.idM
          [exMesh1, exMesh2]).empty.matrix_world.translation =
        (get_bounding_box (meshesOf [exMesh1, exMesh2])).1) ∧
     (({ location := "TOP" } : PTEProps).location = "BOTTOM" →
      (ParentToEmpty_execute { location := "TOP" } 2 (fun _ => Mat4.idM) Mat4.idM
          [exMesh1, exMesh2]).empty.matrix_world.translation =
        vsub (get_bounding_box (meshesOf [exMesh1, exMesh2])).1
          ⟨.fin 0, .fin 0, XQ.divN (get_bounding_box (meshesOf [exMesh1, exMesh2])).2.z 2⟩)) :=
  ⟨by simp [meshesOf, exMesh1, exMesh2],
   anchor_placement_policy.1 { location := "TOP" } 2 (fun _ => Mat4.idM) Mat4.idM
     [exMesh1, exMesh2] (by simp [meshesOf, exMesh1, exMesh2])⟩

/-- C7: the anchor's parent after `ParentToEmpty.execute` is exactly the
first-encountered non-null parent, outside the selection, of a
top-level selection member (`specFirstExternalParent`, written from the
spec's words); whenever it is assigned it is not a member of the
selection; and the anchor's world matrix is unchanged by this final
re-parenting, for every host behaviour of the parent assignment. -/
theorem anchor_parent_external
    (props : PTEProps) (emptyId : Nat) (oracle : Nat → Mat4) (emptyOracle : Mat4)
    (objs : List Obj) :
    ((ParentToEmpty_execute props emptyId oracle emptyOracle objs).empty.parent =
        specFirstExternalParent objs) ∧
    (∀ p, (ParentToEmpty_execute props emptyId oracle emptyOracle objs).empty.parent = some p →
        p ∉ objs.map (fun o => o.id)) ∧
    ((ParentToEmpty_execute props emptyId oracle emptyOracle objs).empty.matrix_world =
        (preReparentEmpty props emptyId objs).matrix_world) := by
  refine ⟨execute_empty_parent props emptyId oracle emptyOracle objs, ?_,
    execute_empty_matrix props emptyId oracle emptyOracle objs⟩
  intro p hp
  rw [execute_empty_parent, specFirstExternalParent] at hp
  have h1 : p ∈ (objs.filterMap
      (fun o => if optMem o.parent (objs.map (fun o2 => o2.id)) then none else o.parent)).head? := by
    rw [hp]; rfl
  have h2 := List.mem_of_mem_head? h1
  rcases List.mem_filterMap.mp h2 with ⟨o, _, hfo⟩
  by_cases hc : optMem o.parent (objs.map (fun o2 => o2.id))
  · simp [hc] at hfo
  · rw [if_neg hc] at hfo
    rw [hfo] at hc
    simpa [optMem] using hc

/-- C7 witness: with a lone parentless selected object the anchor gets
no parent (`specFirstExternalParent` is `none`), which is trivially not
a selection member, and the anchor matrix is that of the configured
empty. -/
theorem anchor_parent_external_witness :
    ((ParentToEmpty_execute {} 1 (fun _ => Mat4.idM) Mat4.idM [exSolo]).empty.parent =
        specFirstExternalParent [exSolo]) ∧
    (∀ p, (ParentToEmpty_execute {} 1 (fun _ => Mat4.idM) Mat4.idM [exSolo]).empty.parent = some p →
        p ∉ [exSolo].map (fun o => o.id)) ∧
    ((ParentToEmpty_execute {} 1 (fun _ => Mat4.idM) Mat4.idM [exSolo]).empty.matrix_world =
        (preReparentEmpty {} 1 [exSolo]).matrix_world) :=
  anchor_parent_external {} 1 (fun _ => Mat4.idM) Mat4.idM [exSolo]

/-- C4: the provisional anchor position computed by
`ParentToEmpty.execute` is the unweighted arithmetic mean of the
world-space translations of the whole selection (mesh and non-mesh
alike), and for the two non-mesh objects at `(0,0,0)` and `(2,0,0)` the
anchor lands at `(1,0,0)`. -/
theorem mean_translation_anchor :
    (∀ objs : List Obj, objs ≠ [] →
      (∀ o ∈ objs, (o.matrix_world.translation).finB = true) →
      meanLocation objs =
        ⟨.fin ((objs.map (fun o => (o.matrix_world.translation.x).toQ)).sum / (objs.length : ℚ)),
         .fin ((objs.map (fun o => (o.matrix_world.translation.y).toQ)).sum / (objs.length : ℚ)),
         .fin ((objs.map (fun o => (o.matrix_world.translation.z).toQ)).sum / (objs.length : ℚ))⟩) ∧
    (ParentToEmpty_execute {} 2 (fun _ => Mat4.idM) Mat4.idM
        [exNonMeshA, exNonMeshB]).empty.matrix_world.translation = ⟨.fin 1, .fin 0, .fin 0⟩ := by
  constructor
  · intro objs hne hf
    have hlen : objs.length ≠ 0 := fun hl => hne (List.length_eq_zero.mp hl)
    have hcomp : ∀ g : Obj → XQ, (∀ o ∈ objs, (g o).isFin = true) →
        objs.foldl (fun a o => XQ.add a (g o)) (XQ.fin 0) =
          .fin ((objs.map (fun o => (g o).toQ)).sum) := by
      intro g hg
      rw [← List.foldl_map g XQ.add, foldl_xadd_all_fin, List.map_map]
      · rfl
      · intro x hx
        rcases List.mem_map.mp hx with ⟨o, ho, rfl⟩
        exact hg o ho
    have hx := hcomp (fun o => (o.matrix_world.translation).x) (fun o ho => by
      have hb := hf o ho
      simp [Vec3.finB, Bool.and_eq_true] at hb
      exact hb.1.1)
    have hy := hcomp (fun o => (o.matrix_world.translation).y) (fun o ho => by
      have hb := hf o ho
      simp [Vec3.finB, Bool.and_eq_true] at hb
      exact hb.1.2)
    have hz := hcomp (fun o => (o.matrix_world.translation).z) (fun o ho => by
      have hb := hf o ho
      simp [Vec3.finB, Bool.and_eq_true] at hb
      exact hb.2)
    rw [meanLocation, foldl_vadd_components]
    simp only [Vec3.vzero]
    rw [hx, hy, hz, vdivN]
    rw [divN_fin _ _ hlen, divN_fin _ _ hlen, divN_fin _ _ hlen]
  · rw [execute_translation]
    simp [anchorLocation, meshesOf, meanLocation, exNonMeshA, exNonMeshB, transM,
      apply_location_to_matrix, Mat4.idM, Mat4.translation, vadd, vdivN, XQ.add, XQ.divN,
      Vec3.vzero]

/-- C4 witness: the mean formula applied to the two concrete non-mesh
objects. -/
theorem mean_translation_anchor_witness :
    meanLocation [exNonMeshA, exNonMeshB] =
      ⟨.fin ((([exNonMeshA, exNonMeshB] : List Obj).map
          (fun o => (o.matrix_world.translation.x).toQ)).sum /
            (([exNonMeshA, exNonMeshB] : List Obj).length : ℚ)),
       .fin ((([exNonMeshA, exNonMeshB] : List Obj).map
          (fun o => (o.matrix_world.translation.y).toQ)).sum /
            (([exNonMeshA, exNonMeshB] : List Obj).length : ℚ)),
       .fin ((([exNonMeshA, exNonMeshB] : List Obj).map
          (fun o => (o.matrix_world.translation.z).toQ)).sum /
            (([exNonMeshA, exNonMeshB] : List Obj).length : ℚ))⟩ :=
  mean_translation_anchor.1 [exNonMeshA, exNonMeshB] (by simp)
    (by simp [exNonMeshA, exNonMeshB, transM, apply_location_to_matrix, Mat4.idM,
      Mat4.translation, Vec3.finB, XQ.isFin])

/-- C8: `SelectDescendants.execute` adds exactly the transitive
descendants of the selected nodes to the selection: the result is the
old selection united with the descendants (so the roots contribute no
new members), a selection of childless leaves is left unchanged, and no
node is ever deselected. -/
theorem select_descendants_spec (s : Scene) (selected : List Nat) (x : Nat)
    (hnd : s.nodes.Nodup) (hac : Acyclic s) :
    (x ∈ SelectDescendants_execute s selected ↔
        x ∈ selected ∨ ∃ r ∈ selected, Desc s r x) ∧
    (x ∈ selected → x ∈ SelectDescendants_execute s selected) ∧
    ((∀ r ∈ selected, children s r = []) →
        SelectDescendants_execute s selected = selected.toFinset) := by
  refine ⟨?_, ?_, ?_⟩
  · rw [mem_selectDescendants]
    simp only [mem_children_recursive s hnd hac]
  · intro hx
    rw [mem_selectDescendants]
    exact Or.inl hx
  · intro hleaf
    have hcr : ∀ r ∈ selected, children_recursive s r = [] :=
      fun r hr => children_recursive_of_no_children s r (hleaf r hr)
    ext y
    rw [mem_selectDescendants, List.mem_toFinset]
    constructor
    · rintro (h | ⟨r, hr, hy⟩)
      · exact h
      · rw [hcr r hr] at hy
        cases hy
    · exact Or.inl

/-- C8 witness: selecting the descendants of the leaf `2` of the chain
scene changes nothing. -/
theorem select_descendants_spec_witness :
    ((2 ∈ SelectDescendants_execute exChain [2] ↔
        2 ∈ ([2] : List Nat) ∨ ∃ r ∈ ([2] : List Nat), Desc exChain r 2) ∧
     (2 ∈ ([2] : List Nat) → 2 ∈ SelectDescendants_execute exChain [2]) ∧
     ((∀ r ∈ ([2] : List Nat), children exChain r = []) →
        SelectDescendants_execute exChain [2] = ([2] : List Nat).toFinset)) :=
  select_descendants_spec exChain [2] 2 exChain_nodup exChain_acyclic

/-- C2: for a collection of mesh objects whose world-space vertex list
is non-empty (and finite), `get_bounding_box` returns `(center, extent)`
where, independently per axis, the minimum and maximum range over all
vertex positions transformed into world space by each object's own
world matrix, `center = (min + max) / 2` and `extent = max - min`; on
the two meshes spanning `(-1,-1,0)` to `(1,1,2)` it returns center
`(0,0,1)` and extent `(2,2,2)`. -/
theorem bounding_box_spec :
    (∀ objs : List Obj, worldVerts objs ≠ [] →
      (∀ w ∈ worldVerts objs, w.finB = true) →
      ∃ mnx mxx mny mxy mnz mxz : ℚ,
        get_bounding_box objs =
          (⟨.fin ((mnx + mxx) / 2), .fin ((mny + mxy) / 2), .fin ((mnz + mxz) / 2)⟩,
           ⟨.fin (mxx - mnx), .fin (mxy - mny), .fin (mxz - mnz)⟩) ∧
        (∀ w ∈ worldVerts objs,
          mnx ≤ w.x.toQ ∧ w.x.toQ ≤ mxx ∧ mny ≤ w.y.toQ ∧ w.y.toQ ≤ mxy ∧
          mnz ≤ w.z.toQ ∧ w.z.toQ ≤ mxz) ∧
        ((∃ w ∈ worldVerts objs, w.x.toQ = mnx) ∧ (∃ w ∈ worldVerts objs, w.x.toQ = mxx) ∧
         (∃ w ∈ worldVerts objs, w.y.toQ = mny) ∧ (∃ w ∈ worldVerts objs, w.y.toQ = mxy) ∧
         (∃ w ∈ worldVerts objs, w.z.toQ = mnz) ∧ (∃ w ∈ worldVerts objs, w.z.toQ = mxz))) ∧
    get_bounding_box [exMesh1, exMesh2] =
      (⟨.fin 0, .fin 0, .fin 1⟩, ⟨.fin 2, .fin 2, .fin 2⟩) := by
  constructor
  · intro objs hne hf
    have hxne : (worldVerts objs).map Vec3.x ≠ [] := by
      simpa using hne
    have hyne : (worldVerts objs).map Vec3.y ≠ [] := by
      simpa using hne
    have hzne : (worldVerts objs).map Vec3.z ≠ [] := by
      simpa using hne
    have hfin : ∀ getc : Vec3 → XQ, (∀ w : Vec3, w.finB = true → (getc w).isFin = true) →
        ∀ a ∈ (worldVerts objs).map getc, a.isFin = true := by
      intro getc hg a ha
      rcases List.mem_map.mp ha with ⟨w, hw, rfl⟩
      exact hg w (hf w hw)
    have hgx : ∀ w : Vec3, w.finB = true → (Vec3.x w).isFin = true := by
      intro w hw
      simp [Vec3.finB, Bool.and_eq_true] at hw
      exact hw.1.1
    have hgy : ∀ w : Vec3, w.finB = true → (Vec3.y w).isFin = true := by
      intro w hw
      simp [Vec3.finB, Bool.and_eq_true] at hw
      exact hw.1.2
    have hgz : ∀ w : Vec3, w.finB = true → (Vec3.z w).isFin = true := by
      intro w hw
      simp [Vec3.finB, Bool.and_eq_true] at hw
      exact hw.2
    obtain ⟨mnx, hmnx, hmnxl, hmnxa⟩ := minfold_spec _ hxne (hfin Vec3.x hgx)
    obtain ⟨mxx, hmxx, hmxxu, hmxxa⟩ := maxfold_spec _ hxne (hfin Vec3.x hgx)
    obtain ⟨mny, hmny, hmnyl, hmnya⟩ := minfold_spec _ hyne (hfin Vec3.y hgy)
    obtain ⟨mxy, hmxy, hmxyu, hmxya⟩ := maxfold_spec _ hyne (hfin Vec3.y hgy)
    obtain ⟨mnz, hmnz, hmnzl, hmnza⟩ := minfold_spec _ hzne (hfin Vec3.z hgz)
    obtain ⟨mxz, hmxz, hmxzu, hmxza⟩ := maxfold_spec _ hzne (hfin Vec3.z hgz)
    have hcomp := bboxFold_components (worldVerts objs) ⟨.pinf, .pinf, .pinf⟩ ⟨.ninf, .ninf, .ninf⟩
    have h1 : (bboxMinMax objs).1 = ⟨.fin mnx, .fin mny, .fin mnz⟩ := by
      rw [bboxMinMax_eq_foldl, hcomp.1]
      rw [show (⟨.pinf, .pinf, .pinf⟩ : Vec3).x = XQ.pinf from rfl]
      rw [show (⟨.pinf, .pinf, .pinf⟩ : Vec3).y = XQ.pinf from rfl]
      rw [show (⟨.pinf, .pinf, .pinf⟩ : Vec3).z = XQ.pinf from rfl]
      rw [hmnx, hmny, hmnz]
    have h2 : (bboxMinMax objs).2 = ⟨.fin mxx, .fin mxy, .fin mxz⟩ := by
      rw [bboxMinMax_eq_foldl, hcomp.2]
      rw [show (⟨.ninf, .ninf, .ninf⟩ : Vec3).x = XQ.ninf from rfl]
      rw [show (⟨.ninf, .ninf, .ninf⟩ : Vec3).y = XQ.ninf from rfl]
      rw [show (⟨.ninf, .ninf, .ninf⟩ : Vec3).z = XQ.ninf from rfl]
      rw [hmxx, hmxy, hmxz]
    refine ⟨mnx, mxx, mny, mxy, mnz, mxz, ?_, ?_, ?_⟩
    · rw [get_bounding_box, h1, h2]
      simp [vadd, vsub, vdivN, XQ.add, XQ.sub, XQ.neg, XQ.divN, sub_eq_add_neg]
    · intro w hw
      exact ⟨hmnxl _ (List.mem_map_of_mem Vec3.x hw), hmxxu _ (List.mem_map_of_mem Vec3.x hw),
        hmnyl _ (List.mem_map_of_mem Vec3.y hw), hmxyu _ (List.mem_map_of_mem Vec3.y hw),
        hmnzl _ (List.mem_map_of_mem Vec3.z hw), hmxzu _ (List.mem_map_of_mem Vec3.z hw)⟩
    · refine ⟨?_, ?_, ?_, ?_, ?_, ?_⟩
      · rcases hmnxa with ⟨a, ha, he⟩
        rcases List.mem_map.mp ha with ⟨w, hw, rfl⟩
        exact ⟨w, hw, he⟩
      · rcases hmxxa with ⟨a, ha, he⟩
        rcases List.mem_map.mp ha with ⟨w, hw, rfl⟩
        exact ⟨w, hw, he⟩
      · rcases hmnya with ⟨a, ha, he⟩
        rcases List.mem_map.mp ha with ⟨w, hw, rfl⟩
        exact ⟨w, hw, he⟩
      · rcases hmxya with ⟨a, ha, he⟩
        rcases List.mem_map.mp ha with ⟨w, hw, rfl⟩
        exact ⟨w, hw, he⟩
      · rcases hmnza with ⟨a, ha, he⟩
        rcases List.mem_map.mp ha with ⟨w, hw, rfl⟩
        exact ⟨w, hw, he⟩
      · rcases hmxza with ⟨a, ha, he⟩
        rcases List.mem_map.mp ha with ⟨w, hw, rfl⟩
        exact ⟨w, hw, he⟩
  · norm_num [get_bounding_box, bboxMinMax, bboxStep, exMesh1, exMesh2, Mat4.mulPoint, Mat4.idM,
      XQ.mul, XQ.add, XQ.pymin, XQ.pymax, XQ.lt, vadd, vsub, vdivN, XQ.divN, XQ.sub, XQ.neg]

/-- C2 witness: the per-axis min/max characterization applied to the
concrete two-mesh collection. -/
theorem bounding_box_spec_witness :
    ∃ mnx mxx mny mxy mnz mxz : ℚ,
      get_bounding_box [exMesh1, exMesh2] =
        (⟨.fin ((mnx + mxx) / 2), .fin ((mny + mxy) / 2), .fin ((mnz + mxz) / 2)⟩,
         ⟨.fin (mxx - mnx), .fin (mxy - mny), .fin (mxz - mnz)⟩) ∧
      (∀ w ∈ worldVerts [exMesh1, exMesh2],
        mnx ≤ w.x.toQ ∧ w.x.toQ ≤ mxx ∧ mny ≤ w.y.toQ ∧ w.y.toQ ≤ mxy ∧
        mnz ≤ w.z.toQ ∧ w.z.toQ ≤ mxz) ∧
      ((∃ w ∈ worldVerts [exMesh1, exMesh2], w.x.toQ = mnx) ∧
       (∃ w ∈ worldVerts [exMesh1, exMesh2], w.x.toQ = mxx) ∧
       (∃ w ∈ worldVerts [exMesh1, exMesh2], w.y.toQ = mny) ∧
       (∃ w ∈ worldVerts [exMesh1, exMesh2], w.y.toQ = mxy) ∧
       (∃ w ∈ worldVerts [exMesh1, exMesh2], w.z.toQ = mnz) ∧
       (∃ w ∈ worldVerts [exMesh1, exMesh2], w.z.toQ = mxz)) :=
  bounding_box_spec.1 [exMesh1, exMesh2]
    (by simp [worldVerts, exMesh1, exMesh2])
    (by simp [worldVerts, exMesh1, exMesh2, Mat4.mulPoint, Mat4.idM, XQ.mul, XQ.add,
      Vec3.finB, XQ.isFin])

end BetterParenting
